import Mathlib

/-!
Verification of the semantic text chunker of `qdrant_1.py`
(`split_into_sentences`, `recursive_chunk_text`).

Strings are modelled as `List Char` (Python `str` over its code points; the
inputs of interest are ASCII, and the character classes below are the ASCII
meaning of the regex classes used in the source).  Python's
`text.split('\n\n')` is modelled by `splitParagraphs`, the regex split of
`re.split(r'(?<!\w\.\w.)(?<![A-Z][a-z]\.)(?<=\.|\?|\!)\s', text)` by
`reSplitWS` driven by the decision procedure `sentenceBoundary`, and the two
accumulator loops of `recursive_chunk_text` by `procSentences` and
`procParagraphs`.
-/

namespace PicToText

/-- ASCII whitespace, the characters matched by the regex class `\s` and
stripped by Python `str.strip()` on ASCII text. -/
def isWS (c : Char) : Bool :=
  c == ' ' || c == '\t' || c == '\n' || c == '\r' || c == '\x0b' || c == '\x0c'

/-- ASCII word character, the regex class `\w`. -/
def isWordChar (c : Char) : Bool :=
  c.isAlpha || c.isDigit || c == '_'

/-- Sentence-ending punctuation, the regex alternation `\.|\?|\!`. -/
def isSentEnd (c : Char) : Bool :=
  c == '.' || c == '?' || c == '!'

/-- The negative lookbehind `(?<!\w\.\w.)` of the source regex, evaluated on
the reversed list of characters preceding the candidate split position.  The
final unescaped `.` of the pattern matches any character except a newline. -/
def suppressAbbrev (prev : List Char) : Bool :=
  match prev with
  | p1 :: p2 :: p3 :: p4 :: _ =>
      !(p1 == '\n') && (p3 == '.') && isWordChar p2 && isWordChar p4
  | _ => false

/-- The negative lookbehind `(?<![A-Z][a-z]\.)` of the source regex, evaluated
on the reversed list of characters preceding the candidate split position. -/
def suppressInitialAbbrev (prev : List Char) : Bool :=
  match prev with
  | p1 :: p2 :: p3 :: _ => (p1 == '.') && p2.isLower && p3.isUpper
  | _ => false

/-- Whether the source regex matches at a position: the character there is
whitespace, the positive lookbehind `(?<=\.|\?|\!)` holds, and neither
negative lookbehind fires.  `prev` is the reversed list of characters before
the position. -/
def sentenceBoundary (prev : List Char) (c : Char) : Bool :=
  isWS c
    && (match prev with
        | p1 :: _ => isSentEnd p1
        | [] => false)
    && !(suppressAbbrev prev)
    && !(suppressInitialAbbrev prev)

/-- Left-to-right scan of `re.split`: each matched whitespace character is
consumed as a separator, and the lookbehinds see the original text, so `prev`
accumulates every character passed, separators included. -/
def reSplitWS (prev cur : List Char) : List Char → List (List Char)
  | [] => [cur.reverse]
  | c :: rest =>
      if sentenceBoundary prev c then
        cur.reverse :: reSplitWS (c :: prev) [] rest
      else
        reSplitWS (c :: prev) (c :: cur) rest

/-- Python `str.strip()`: remove leading and trailing whitespace. -/
def strip (l : List Char) : List Char :=
  (((l.dropWhile isWS).reverse).dropWhile isWS).reverse

/-- `split_into_sentences` of `qdrant_1.py`: regex-split the text, strip each
piece, and keep only the pieces that are non-empty after stripping. -/
def split_into_sentences (text : List Char) : List (List Char) :=
  ((reSplitWS [] [] text).map strip).filter (fun s => !s.isEmpty)

/-- Helper for `splitParagraphs`: prepend a character to the first segment of
a non-empty list of segments. -/
def pushHead (c : Char) : List (List Char) → List (List Char)
  | [] => [[c]]
  | h :: t => (c :: h) :: t

/-- Python `text.split('\n\n')`: greedy left-to-right split on the two-newline
separator; like Python's `str.split`, the result is never the empty list and
keeps empty segments. -/
def splitParagraphs : List Char → List (List Char)
  | [] => [[]]
  | [c] => [[c]]
  | c :: d :: rest =>
      if c = '\n' ∧ d = '\n' then [] :: splitParagraphs rest
      else pushHead c (splitParagraphs (d :: rest))

/-- The inner sentence loop of `recursive_chunk_text`: state is the list of
emitted chunks and the `sentence_chunk` accumulator.  The overflow test
`len(sentence_chunk) + len(sentence) > max_chunk_size and sentence_chunk`
ignores the one-character space joiner added on merge, exactly as in the
source. -/
def procSentences (maxSize : Nat) (chunks : List (List Char)) (sc : List Char) :
    List (List Char) → List (List Char) × List Char
  | [] => (chunks, sc)
  | s :: rest =>
      if maxSize < sc.length + s.length ∧ sc ≠ [] then
        procSentences maxSize (chunks ++ [sc]) s rest
      else
        procSentences maxSize chunks (sc ++ (if sc ≠ [] then [' '] else []) ++ s) rest

/-- The outer paragraph loop of `recursive_chunk_text`: state is the list of
emitted chunks and the `current_chunk` accumulator.  The three branches are,
in source order: flush-and-carry when merging would overflow and the
accumulator is non-empty; sentence-splitting when the paragraph alone exceeds
the bound (flushing a non-empty accumulator first, and afterwards carrying the
final sentence accumulator forward as `current_chunk`, which in Python is the
no-op `current_chunk = sentence_chunk if sentence_chunk else ""`); otherwise
merge with a `"\n\n"` joiner when the accumulator is non-empty. -/
def procParagraphs (maxSize : Nat) (chunks : List (List Char)) (current : List Char) :
    List (List Char) → List (List Char) × List Char
  | [] => (chunks, current)
  | p :: rest =>
      if maxSize < current.length + p.length ∧ current ≠ [] then
        procParagraphs maxSize (chunks ++ [current]) p rest
      else if maxSize < p.length then
        procParagraphs maxSize
          (procSentences maxSize
            (if current ≠ [] then chunks ++ [current] else chunks) []
            (split_into_sentences p)).1
          (procSentences maxSize
            (if current ≠ [] then chunks ++ [current] else chunks) []
            (split_into_sentences p)).2
          rest
      else
        procParagraphs maxSize chunks
          (current ++ (if current ≠ [] then ['\n', '\n'] else []) ++ p) rest

/-- `recursive_chunk_text` of `qdrant_1.py` on a string input: early return on
the empty string, then the paragraph loop over `text.split('\n\n')`, then the
final flush of a non-empty accumulator. -/
def recursive_chunk_text (text : List Char) (maxSize : Nat) : List (List Char) :=
  if text = [] then []
  else if (procParagraphs maxSize [] [] (splitParagraphs text)).2 ≠ [] then
    (procParagraphs maxSize [] [] (splitParagraphs text)).1
      ++ [(procParagraphs maxSize [] [] (splitParagraphs text)).2]
  else
    (procParagraphs maxSize [] [] (splitParagraphs text)).1

/-- Error kinds a caller of the Python function could observe. -/
inductive PyError where
  | invalidInput : PyError
  | attributeError : PyError
deriving DecidableEq

/-- `recursive_chunk_text` on a string-or-`None` argument, modelling the
dynamic typing of the call site: `None` is falsy in Python, so the guard
`if not text: return []` returns the empty list for it without raising; no
type check or error path exists in the source for this input. -/
def recursive_chunk_text_py (input : Option (List Char)) (maxSize : Nat) :
    Except PyError (List (List Char)) :=
  match input with
  | Option.none => Except.ok []
  | Option.some s => Except.ok (recursive_chunk_text s maxSize)

/-- Whether a text contains the two-newline paragraph separator. -/
def hasParSep : List Char → Bool
  | [] => false
  | [_] => false
  | c :: d :: rest => (c == '\n' && d == '\n') || hasParSep (d :: rest)

/-- The characters of a text that are not whitespace, in order.  Every joiner
the chunker inserts and every separator the splitters consume is whitespace,
so this is the observable the reconstruction property is stated on. -/
def nonWS (l : List Char) : List Char :=
  l.filter (fun c => !(isWS c))

/-! Basic facts about `nonWS`. -/

theorem nonWS_nil : nonWS [] = [] := rfl

theorem nonWS_append (a b : List Char) : nonWS (a ++ b) = nonWS a ++ nonWS b :=
  List.filter_append a b

theorem nonWS_cons_ws {c : Char} (l : List Char) (h : isWS c = true) :
    nonWS (c :: l) = nonWS l := by
  simp [nonWS, List.filter_cons, h]

theorem nonWS_cons_not_ws {c : Char} (l : List Char) (h : isWS c = false) :
    nonWS (c :: l) = c :: nonWS l := by
  simp [nonWS, List.filter_cons, h]

theorem nonWS_reverse (l : List Char) : nonWS l.reverse = (nonWS l).reverse := by
  simp [nonWS, List.filter_reverse]

theorem nonWS_dropWhile (l : List Char) : nonWS (l.dropWhile isWS) = nonWS l := by
  induction l with
  | nil => rfl
  | cons c t ih =>
    rw [List.dropWhile_cons]
    cases h : isWS c with
    | false => simp [h]
    | true => simp [h, ih, nonWS_cons_ws t h]

theorem nonWS_strip (l : List Char) : nonWS (strip l) = nonWS l := by
  unfold strip
  rw [nonWS_reverse, nonWS_dropWhile, nonWS_reverse, nonWS_dropWhile,
    List.reverse_reverse]

theorem nonWS_if_space (P : Prop) [Decidable P] :
    nonWS (if P then [' '] else []) = [] := by
  split <;> decide

theorem nonWS_if_nl (P : Prop) [Decidable P] :
    nonWS (if P then ['\n', '\n'] else []) = [] := by
  split <;> decide

theorem nonWS_if_space_swap (P : Prop) [Decidable P] :
    nonWS (if P then [] else [' ']) = [] := by
  split <;> decide

theorem nonWS_if_nl_swap (P : Prop) [Decidable P] :
    nonWS (if P then [] else ['\n', '\n']) = [] := by
  split <;> decide

/-! Facts about `splitParagraphs`. -/

theorem flatten_pushHead (c : Char) (xs : List (List Char)) :
    (pushHead c xs).flatten = c :: xs.flatten := by
  cases xs <;> simp [pushHead]

theorem nonWS_flatten_splitParagraphs (l : List Char) :
    nonWS (splitParagraphs l).flatten = nonWS l := by
  have H : ∀ n (l : List Char), l.length ≤ n →
      nonWS (splitParagraphs l).flatten = nonWS l := by
    intro n
    induction n with
    | zero =>
      intro l hl
      have : l = [] := List.eq_nil_of_length_eq_zero (Nat.le_zero.1 hl)
      subst this
      simp [splitParagraphs]
    | succ n ih =>
      intro l hl
      match l with
      | [] => simp [splitParagraphs]
      | [c] => simp [splitParagraphs]
      | c :: d :: rest =>
        rw [splitParagraphs]
        by_cases h : c = '\n' ∧ d = '\n'
        · rw [if_pos h]
          obtain ⟨hc, hd⟩ := h
          subst hc; subst hd
          have hrest : rest.length ≤ n := by
            simp only [List.length_cons] at hl; omega
          simp only [List.flatten_cons, List.nil_append, ih rest hrest]
          rw [nonWS_cons_ws _ (by decide), nonWS_cons_ws _ (by decide)]
        · rw [if_neg h, flatten_pushHead]
          have hrest : (d :: rest).length ≤ n := by
            simp only [List.length_cons] at hl ⊢; omega
          have hIH := ih (d :: rest) hrest
          cases hws : isWS c with
          | false => rw [nonWS_cons_not_ws _ hws, nonWS_cons_not_ws _ hws, hIH]
          | true => rw [nonWS_cons_ws _ hws, nonWS_cons_ws _ hws, hIH]
  exact H l.length l le_rfl

theorem splitParagraphs_eq_self (l : List Char) (h : hasParSep l = false) :
    splitParagraphs l = [l] := by
  have H : ∀ n (l : List Char), l.length ≤ n → hasParSep l = false →
      splitParagraphs l = [l] := by
    intro n
    induction n with
    | zero =>
      intro l hl _
      have : l = [] := List.eq_nil_of_length_eq_zero (Nat.le_zero.1 hl)
      subst this
      rfl
    | succ n ih =>
      intro l hl hsep
      match l with
      | [] => rfl
      | [c] => rfl
      | c :: d :: rest =>
        rw [hasParSep] at hsep
        rw [Bool.or_eq_false_iff] at hsep
        obtain ⟨hsep1, hsep2⟩ := hsep
        have hcd : ¬(c = '\n' ∧ d = '\n') := by
          intro hconj
          obtain ⟨hc, hd⟩ := hconj
          subst hc; subst hd
          simp at hsep1
        rw [splitParagraphs, if_neg hcd]
        have hrest : (d :: rest).length ≤ n := by
          simp only [List.length_cons] at hl ⊢; omega
        rw [ih (d :: rest) hrest hsep2]
        rfl
  exact H l.length l le_rfl h

theorem splitParagraphs_nl_run (j : Nat) :
    splitParagraphs (List.replicate (2 * j) '\n') = List.replicate (j + 1) [] := by
  induction j with
  | zero => rfl
  | succ j ih =>
    have h2 : 2 * (j + 1) = 2 * j + 1 + 1 := by omega
    rw [h2, List.replicate_succ, List.replicate_succ]
    rw [splitParagraphs, if_pos ⟨rfl, rfl⟩, ih]
    rfl

/-! Facts about `reSplitWS` and `split_into_sentences`. -/

theorem sentenceBoundary_isWS {prev : List Char} {c : Char}
    (h : sentenceBoundary prev c = true) : isWS c = true := by
  unfold sentenceBoundary at h
  simp only [Bool.and_eq_true] at h
  exact h.1.1.1

theorem nonWS_flatten_reSplitWS (l : List Char) : ∀ prev cur : List Char,
    nonWS (reSplitWS prev cur l).flatten = nonWS cur.reverse ++ nonWS l := by
  induction l with
  | nil =>
    intro prev cur
    simp [reSplitWS, nonWS_nil]
  | cons c rest ih =>
    intro prev cur
    rw [reSplitWS]
    by_cases h : sentenceBoundary prev c = true
    · rw [if_pos h]
      rw [List.flatten_cons, nonWS_append, ih (c :: prev) []]
      rw [nonWS_cons_ws rest (sentenceBoundary_isWS h)]
      simp [nonWS_nil]
    · rw [if_neg h, ih (c :: prev) (c :: cur)]
      rw [List.reverse_cons, nonWS_append]
      cases hws : isWS c with
      | false =>
        rw [nonWS_cons_not_ws rest hws, nonWS_cons_not_ws [] hws, nonWS_nil]
        simp
      | true =>
        rw [nonWS_cons_ws rest hws, nonWS_cons_ws [] hws, nonWS_nil]
        simp

theorem flatten_filter_nonempty (xs : List (List Char)) :
    (xs.filter (fun s => !s.isEmpty)).flatten = xs.flatten := by
  induction xs with
  | nil => rfl
  | cons h t ih => cases h <;> simp [List.filter_cons, ih]

theorem nonWS_flatten_map_strip (xs : List (List Char)) :
    nonWS (xs.map strip).flatten = nonWS xs.flatten := by
  induction xs with
  | nil => rfl
  | cons h t ih => simp [nonWS_append, nonWS_strip, ih]

theorem nonWS_flatten_sentences (p : List Char) :
    nonWS (split_into_sentences p).flatten = nonWS p := by
  unfold split_into_sentences
  rw [flatten_filter_nonempty, nonWS_flatten_map_strip, nonWS_flatten_reSplitWS]
  simp [nonWS_nil]

/-! Reconstruction invariant of the two accumulator loops: the non-whitespace
characters of all emitted chunks followed by the accumulator are exactly the
non-whitespace characters of the chunks and accumulator at entry followed by
the remaining input pieces. -/

theorem procSentences_nonWS (maxSize : Nat) (ss : List (List Char)) :
    ∀ chunks sc,
    nonWS (procSentences maxSize chunks sc ss).1.flatten
        ++ nonWS (procSentences maxSize chunks sc ss).2
      = nonWS chunks.flatten ++ nonWS sc ++ nonWS ss.flatten := by
  induction ss with
  | nil =>
    intro chunks sc
    simp [procSentences, nonWS_nil]
  | cons s rest ih =>
    intro chunks sc
    rw [procSentences]
    by_cases h : maxSize < sc.length + s.length ∧ sc ≠ []
    · rw [if_pos h, ih]
      simp [nonWS_append, nonWS_nil, List.append_assoc]
    · rw [if_neg h, ih]
      simp [nonWS_append, nonWS_nil, nonWS_if_space, nonWS_if_space_swap,
        List.append_assoc]

theorem procParagraphs_nonWS (maxSize : Nat) (ps : List (List Char)) :
    ∀ chunks current,
    nonWS (procParagraphs maxSize chunks current ps).1.flatten
        ++ nonWS (procParagraphs maxSize chunks current ps).2
      = nonWS chunks.flatten ++ nonWS current ++ nonWS ps.flatten := by
  induction ps with
  | nil =>
    intro chunks current
    simp [procParagraphs, nonWS_nil]
  | cons p rest ih =>
    intro chunks current
    rw [procParagraphs]
    by_cases h1 : maxSize < current.length + p.length ∧ current ≠ []
    · rw [if_pos h1, ih]
      simp [nonWS_append, nonWS_nil, List.append_assoc]
    · rw [if_neg h1]
      by_cases h2 : maxSize < p.length
      · rw [if_pos h2, ih]
        have hs := procSentences_nonWS maxSize (split_into_sentences p)
          (if current ≠ [] then chunks ++ [current] else chunks) []
        rw [List.append_assoc, List.append_assoc]
        rw [← List.append_assoc
          (nonWS (procSentences maxSize
            (if current ≠ [] then chunks ++ [current] else chunks) []
            (split_into_sentences p)).1.flatten)]
        rw [hs, nonWS_flatten_sentences]
        by_cases hc : current ≠ []
        · rw [if_pos hc]
          simp [nonWS_append, nonWS_nil, List.append_assoc]
        · rw [if_neg hc]
          have : current = [] := not_not.1 hc
          subst this
          simp [nonWS_append, nonWS_nil, List.append_assoc]
      · rw [if_neg h2, ih]
        simp [nonWS_append, nonWS_nil, nonWS_if_nl, nonWS_if_nl_swap,
          List.append_assoc]

/-! Size-bound invariant of the two accumulator loops.  A value the sentence
loop emits or carries is within one space joiner of the bound, or is a single
sentence that alone exceeds the bound; a value the paragraph loop emits or
carries is within one paragraph joiner of the bound, or is a whole paragraph
or a single sentence that alone exceeds the bound. -/

def GoodS (maxSize : Nat) (ss : List (List Char)) (c : List Char) : Prop :=
  c.length ≤ maxSize + 1 ∨ (maxSize < c.length ∧ c ∈ ss)

def GoodC (maxSize : Nat) (ps : List (List Char)) (c : List Char) : Prop :=
  c.length ≤ maxSize + 2
    ∨ (maxSize < c.length ∧ c ∈ ps)
    ∨ (maxSize < c.length ∧ ∃ p ∈ ps, c ∈ split_into_sentences p)

theorem goodS_of_mem (maxSize : Nat) (ss : List (List Char)) (s : List Char)
    (hs : s ∈ ss) : GoodS maxSize ss s := by
  by_cases h : s.length ≤ maxSize + 1
  · exact Or.inl h
  · exact Or.inr ⟨by omega, hs⟩

theorem goodC_of_mem (maxSize : Nat) (ps : List (List Char)) (p : List Char)
    (hp : p ∈ ps) : GoodC maxSize ps p := by
  by_cases h : p.length ≤ maxSize + 2
  · exact Or.inl h
  · exact Or.inr (Or.inl ⟨by omega, hp⟩)

theorem goodS_to_goodC (maxSize : Nat) (ps : List (List Char)) (p : List Char)
    (hp : p ∈ ps) (c : List Char) (h : GoodS maxSize (split_into_sentences p) c) :
    GoodC maxSize ps c := by
  rcases h with h | ⟨h1, h2⟩
  · exact Or.inl (by omega)
  · exact Or.inr (Or.inr ⟨h1, p, hp, h2⟩)

theorem procSentences_goodS (maxSize : Nat) (allSs : List (List Char)) :
    ∀ ss : List (List Char), (∀ s ∈ ss, s ∈ allSs) →
    ∀ (chunks : List (List Char)) (sc : List Char),
    (sc = [] ∨ GoodS maxSize allSs sc) →
    (∀ c ∈ (procSentences maxSize chunks sc ss).1, c ∈ chunks ∨ GoodS maxSize allSs c)
    ∧ ((procSentences maxSize chunks sc ss).2 = []
        ∨ GoodS maxSize allSs (procSentences maxSize chunks sc ss).2) := by
  intro ss
  induction ss with
  | nil =>
    intro _ chunks sc hsc
    refine ⟨fun c hc => Or.inl ?_, ?_⟩
    · simpa [procSentences] using hc
    · simpa [procSentences] using hsc
  | cons s rest ih =>
    intro hsub chunks sc hsc
    have hs : s ∈ allSs := hsub s (by simp)
    have hrest : ∀ x ∈ rest, x ∈ allSs := fun x hx => hsub x (by simp [hx])
    rw [procSentences]
    by_cases h : maxSize < sc.length + s.length ∧ sc ≠ []
    · rw [if_pos h]
      have hscg : GoodS maxSize allSs sc := by
        rcases hsc with h0 | h0
        · exact absurd h0 h.2
        · exact h0
      obtain ⟨ha, hb⟩ := ih hrest (chunks ++ [sc]) s
        (Or.inr (goodS_of_mem maxSize allSs s hs))
      refine ⟨fun c hc => ?_, hb⟩
      rcases ha c hc with hmem | hg
      · rcases List.mem_append.1 hmem with hm1 | hm2
        · exact Or.inl hm1
        · have : c = sc := by simpa using hm2
          subst this
          exact Or.inr hscg
      · exact Or.inr hg
    · rw [if_neg h]
      apply ih hrest chunks
      by_cases hsc0 : sc = []
      · subst hsc0
        have hre : ([] : List Char) ++ (if ([] : List Char) ≠ [] then [' '] else []) ++ s
            = s := by simp
        rw [hre]
        exact Or.inr (goodS_of_mem maxSize allSs s hs)
      · have hlen : sc.length + s.length ≤ maxSize := by
          rcases not_and_or.1 h with h0 | h0
          · omega
          · exact absurd (not_not.1 h0) hsc0
        refine Or.inr (Or.inl ?_)
        rw [if_pos hsc0]
        simp only [List.length_append, List.length_cons, List.length_nil]
        omega

theorem procParagraphs_goodC (maxSize : Nat) (allPs : List (List Char)) :
    ∀ ps : List (List Char), (∀ p ∈ ps, p ∈ allPs) →
    ∀ (chunks : List (List Char)) (current : List Char),
    (current = [] ∨ GoodC maxSize allPs current) →
    (∀ c ∈ (procParagraphs maxSize chunks current ps).1,
      c ∈ chunks ∨ GoodC maxSize allPs c)
    ∧ ((procParagraphs maxSize chunks current ps).2 = []
        ∨ GoodC maxSize allPs (procParagraphs maxSize chunks current ps).2) := by
  intro ps
  induction ps with
  | nil =>
    intro _ chunks current hcur
    refine ⟨fun c hc => Or.inl ?_, ?_⟩
    · simpa [procParagraphs] using hc
    · simpa [procParagraphs] using hcur
  | cons p rest ih =>
    intro hsub chunks current hcur
    have hp : p ∈ allPs := hsub p (by simp)
    have hrest : ∀ x ∈ rest, x ∈ allPs := fun x hx => hsub x (by simp [hx])
    rw [procParagraphs]
    by_cases h1 : maxSize < current.length + p.length ∧ current ≠ []
    · rw [if_pos h1]
      have hcg : GoodC maxSize allPs current := by
        rcases hcur with h0 | h0
        · exact absurd h0 h1.2
        · exact h0
      obtain ⟨ha, hb⟩ := ih hrest (chunks ++ [current]) p
        (Or.inr (goodC_of_mem maxSize allPs p hp))
      refine ⟨fun c hc => ?_, hb⟩
      rcases ha c hc with hmem | hg
      · rcases List.mem_append.1 hmem with hm1 | hm2
        · exact Or.inl hm1
        · have : c = current := by simpa using hm2
          subst this
          exact Or.inr hcg
      · exact Or.inr hg
    · rw [if_neg h1]
      by_cases h2 : maxSize < p.length
      · rw [if_pos h2]
        have hcur0 : current = [] := by
          rcases not_and_or.1 h1 with h0 | h0
          · exfalso; omega
          · exact not_not.1 h0
        subst hcur0
        have hre : (if ([] : List Char) ≠ [] then chunks ++ [[]] else chunks)
            = chunks := by simp
        rw [hre]
        obtain ⟨hs1, hs2⟩ := procSentences_goodS maxSize (split_into_sentences p)
          (split_into_sentences p) (fun s hs => hs) chunks [] (Or.inl rfl)
        obtain ⟨ha, hb⟩ := ih hrest
          (procSentences maxSize chunks [] (split_into_sentences p)).1
          (procSentences maxSize chunks [] (split_into_sentences p)).2
          (by
            rcases hs2 with h0 | h0
            · exact Or.inl h0
            · exact Or.inr (goodS_to_goodC maxSize allPs p hp _ h0))
        refine ⟨fun c hc => ?_, hb⟩
        rcases ha c hc with hmem | hg
        · rcases hs1 c hmem with hm1 | hm2
          · exact Or.inl hm1
          · exact Or.inr (goodS_to_goodC maxSize allPs p hp c hm2)
        · exact Or.inr hg
      · rw [if_neg h2]
        apply ih hrest chunks
        by_cases hc0 : current = []
        · subst hc0
          have hre : ([] : List Char)
              ++ (if ([] : List Char) ≠ [] then ['\n', '\n'] else []) ++ p = p := by
            simp
          rw [hre]
          exact Or.inr (goodC_of_mem maxSize allPs p hp)
        · have hlen : current.length + p.length ≤ maxSize := by
            rcases not_and_or.1 h1 with h0 | h0
            · omega
            · exact absurd (not_not.1 h0) hc0
          refine Or.inr (Or.inl ?_)
          rw [if_pos hc0]
          simp only [List.length_append, List.length_cons, List.length_nil]
          omega

/-! Non-emptiness invariant: every flush in the source is guarded by a
non-emptiness test, so emitted chunks are never the empty string. -/

theorem procSentences_ne_nil (maxSize : Nat) (ss : List (List Char)) :
    ∀ (chunks : List (List Char)) (sc : List Char),
    (∀ c ∈ chunks, c ≠ []) →
    ∀ c ∈ (procSentences maxSize chunks sc ss).1, c ≠ [] := by
  induction ss with
  | nil =>
    intro chunks sc hch c hc
    exact hch c (by simpa [procSentences] using hc)
  | cons s rest ih =>
    intro chunks sc hch
    rw [procSentences]
    by_cases h : maxSize < sc.length + s.length ∧ sc ≠ []
    · rw [if_pos h]
      apply ih
      intro c hc
      rcases List.mem_append.1 hc with hm1 | hm2
      · exact hch c hm1
      · have : c = sc := by simpa using hm2
        subst this
        exact h.2
    · rw [if_neg h]
      exact ih chunks _ hch

theorem procParagraphs_ne_nil (maxSize : Nat) (ps : List (List Char)) :
    ∀ (chunks : List (List Char)) (current : List Char),
    (∀ c ∈ chunks, c ≠ []) →
    ∀ c ∈ (procParagraphs maxSize chunks current ps).1, c ≠ [] := by
  induction ps with
  | nil =>
    intro chunks current hch c hc
    exact hch c (by simpa [procParagraphs] using hc)
  | cons p rest ih =>
    intro chunks current hch
    rw [procParagraphs]
    by_cases h1 : maxSize < current.length + p.length ∧ current ≠ []
    · rw [if_pos h1]
      apply ih
      intro c hc
      rcases List.mem_append.1 hc with hm1 | hm2
      · exact hch c hm1
      · have : c = current := by simpa using hm2
        subst this
        exact h1.2
    · rw [if_neg h1]
      by_cases h2 : maxSize < p.length
      · rw [if_pos h2]
        apply ih
        apply procSentences_ne_nil
        intro c hc
        by_cases hc0 : current = []
        · subst hc0
          exact hch c (by simpa using hc)
        · rw [if_pos hc0] at hc
          rcases List.mem_append.1 hc with hm1 | hm2
          · exact hch c hm1
          · have : c = current := by simpa using hm2
            subst this
            exact hc0
      · rw [if_neg h2]
        exact ih chunks _ hch

/-! Whether pieces kept by `split_into_sentences` can be whitespace-only. -/

theorem dropWhile_exists_not_ws (l : List Char) (h : l.dropWhile isWS ≠ []) :
    ∃ c ∈ l.dropWhile isWS, isWS c = false := by
  induction l with
  | nil => exact absurd rfl h
  | cons a t ih =>
    rw [List.dropWhile_cons] at h ⊢
    cases ha : isWS a with
    | false =>
      simp only [Bool.false_eq_true, if_false]
      exact ⟨a, by simp, ha⟩
    | true =>
      rw [ha] at h
      simp only [if_true] at h ⊢
      exact ih h

theorem strip_exists_not_ws (l : List Char) (h : strip l ≠ []) :
    ∃ c ∈ strip l, isWS c = false := by
  unfold strip at h ⊢
  have hm : ((l.dropWhile isWS).reverse).dropWhile isWS ≠ [] := by
    intro h0
    exact h (by rw [h0]; rfl)
  obtain ⟨c, hc, hcw⟩ := dropWhile_exists_not_ws ((l.dropWhile isWS).reverse) hm
  exact ⟨c, List.mem_reverse.2 hc, hcw⟩

theorem sentences_mem_not_ws (p s : List Char) (hs : s ∈ split_into_sentences p) :
    ∃ c ∈ s, isWS c = false := by
  unfold split_into_sentences at hs
  obtain ⟨hs1, hs2⟩ := List.mem_filter.1 hs
  obtain ⟨seg, _, hseg⟩ := List.mem_map.1 hs1
  subst hseg
  apply strip_exists_not_ws
  intro h0
  rw [h0] at hs2
  simp at hs2

/-! The claims. -/

/-- C1, counterexample: with `maxSize = 8` the input `"ab. cd\n\nef"` produces
the single chunk `"ab. cd\n\nef"` of length 10 > 8, because the overflow tests
of the source compare `len(current_chunk) + len(paragraph)` without the
two-character `"\n\n"` joiner.  The chunk is not a single oversized sentence
under any reading: it is not a fixed point of the sentence splitter, and it is
not among the sentences of either paragraph of the input. -/
theorem chunk_exceeds_max :
    recursive_chunk_text ("ab. cd\n\nef".toList) 8 = ["ab. cd\n\nef".toList]
    ∧ 8 < ("ab. cd\n\nef".toList).length
    ∧ split_into_sentences ("ab. cd\n\nef".toList) ≠ ["ab. cd\n\nef".toList]
    ∧ splitParagraphs ("ab. cd\n\nef".toList) = ["ab. cd".toList, "ef".toList]
    ∧ ("ab. cd\n\nef".toList) ∉ split_into_sentences ("ab. cd".toList)
    ∧ ("ab. cd\n\nef".toList) ∉ split_into_sentences ("ef".toList) := by
  refine ⟨?_, ?_, ?_, ?_, ?_, ?_⟩ <;> decide

/-- C1, amended: every chunk produced by `recursive_chunk_text` has length at
most `maxSize + 2` (the slack of the paragraph joiner the overflow test
ignores; sentence merges stay within `maxSize + 1`), except chunks that are a
single oversized paragraph of the input or a single oversized sentence of one
of its paragraphs, which are emitted whole. -/
theorem chunk_length_bound (text : List Char) (maxSize : Nat) :
    ∀ c ∈ recursive_chunk_text text maxSize,
      c.length ≤ maxSize + 2
      ∨ (maxSize < c.length ∧ c ∈ splitParagraphs text)
      ∨ (maxSize < c.length ∧ ∃ p ∈ splitParagraphs text,
          c ∈ split_into_sentences p) := by
  intro c hc
  show GoodC maxSize (splitParagraphs text) c
  unfold recursive_chunk_text at hc
  by_cases ht : text = []
  · rw [if_pos ht] at hc
    simp at hc
  · rw [if_neg ht] at hc
    obtain ⟨ha, hb⟩ := procParagraphs_goodC maxSize (splitParagraphs text)
      (splitParagraphs text) (fun p hp => hp) [] [] (Or.inl rfl)
    by_cases hr : (procParagraphs maxSize [] [] (splitParagraphs text)).2 ≠ []
    · rw [if_pos hr] at hc
      rcases List.mem_append.1 hc with hm1 | hm2
      · rcases ha c hm1 with hmem | hg
        · simp at hmem
        · exact hg
      · have : c = (procParagraphs maxSize [] [] (splitParagraphs text)).2 := by
          simpa using hm2
        subst this
        rcases hb with h0 | h0
        · exact absurd h0 hr
        · exact h0
    · rw [if_neg hr] at hc
      rcases ha c hc with hmem | hg
      · simp at hmem
      · exact hg

/-- C1, witness for the amended bound at `text = "ab"`, `maxSize = 1`. -/
theorem chunk_length_bound_witness :
    ("ab".toList).length ≤ 1 + 2
    ∨ (1 < ("ab".toList).length ∧ "ab".toList ∈ splitParagraphs ("ab".toList))
    ∨ (1 < ("ab".toList).length ∧ ∃ p ∈ splitParagraphs ("ab".toList),
        "ab".toList ∈ split_into_sentences p) :=
  chunk_length_bound ("ab".toList) 1 ("ab".toList) (by decide)

/-- C2: for non-empty `text` and positive `maxSize`, the chunks reconstruct
the input up to whitespace: the non-whitespace characters of the concatenated
chunks are exactly the non-whitespace characters of `text`, in order, so no
non-whitespace character is dropped or duplicated.  Every joiner the chunker
inserts and every separator the splitters consume is whitespace, so this is
precisely reconstruction up to separator normalization and boundary
trimming. -/
theorem chunks_preserve_nonws (text : List Char) (maxSize : Nat)
    (h1 : text ≠ []) (h2 : 0 < maxSize) :
    nonWS (recursive_chunk_text text maxSize).flatten = nonWS text := by
  unfold recursive_chunk_text
  rw [if_neg h1]
  have hp := procParagraphs_nonWS maxSize (splitParagraphs text) [] []
  simp only [List.flatten_nil, nonWS_nil, List.nil_append] at hp
  rw [nonWS_flatten_splitParagraphs] at hp
  by_cases hr : (procParagraphs maxSize [] [] (splitParagraphs text)).2 ≠ []
  · rw [if_pos hr]
    rw [List.flatten_append]
    simp only [List.flatten_cons, List.flatten_nil, List.append_nil]
    rw [nonWS_append, hp]
  · rw [if_neg hr]
    have h0 : (procParagraphs maxSize [] [] (splitParagraphs text)).2 = [] :=
      not_not.1 hr
    rw [h0, nonWS_nil, List.append_nil] at hp
    exact hp

/-- C2, witness at `text = "a. b\n\nc"`, `maxSize = 3`. -/
theorem chunks_preserve_nonws_witness :
    ("a. b\n\nc".toList ≠ []) ∧ 0 < 3
    ∧ nonWS (recursive_chunk_text ("a. b\n\nc".toList) 3).flatten
        = nonWS ("a. b\n\nc".toList) :=
  ⟨by decide, by decide,
    chunks_preserve_nonws ("a. b\n\nc".toList) 3 (by decide) (by decide)⟩

/-- C3, counterexample: for a `None` input the source returns the empty list
normally (the guard `if not text: return []` treats `None` as falsy), so no
`InvalidInput` error is surfaced; the input is silently coerced to an empty
result. -/
theorem none_input_no_error :
    recursive_chunk_text_py Option.none 1000 = Except.ok []
    ∧ (Except.ok ([] : List (List Char)) : Except PyError (List (List Char)))
        ≠ Except.error PyError.invalidInput :=
  ⟨rfl, fun h => Except.noConfusion h⟩

/-- C3, amended: a `None` input is silently coerced rather than rejected:
for every `maxSize` the call returns the empty sequence normally, the same
result as for the empty string, and no error is raised. -/
theorem none_input_silent_empty (maxSize : Nat) :
    recursive_chunk_text_py Option.none maxSize = Except.ok []
    ∧ recursive_chunk_text_py Option.none maxSize
        = recursive_chunk_text_py (Option.some []) maxSize :=
  ⟨rfl, rfl⟩

/-- C4: whenever the accumulator is non-empty and appending the incoming
paragraph would exceed `maxSize` (the source's test
`len(current_chunk) + len(paragraph) > max_chunk_size`), the first branch of
the loop fires: the accumulator is flushed and the paragraph becomes the new
accumulator unchanged — it is not sentence-split even when it alone exceeds
`maxSize` (branch 3a takes precedence over 3b, since an oversized paragraph
meeting a non-empty accumulator always satisfies this overflow condition),
and when it is the last paragraph it is carried out whole as the final
accumulator value. -/
theorem oversized_para_carried (maxSize : Nat) (chunks : List (List Char))
    (current p : List Char) (ps : List (List Char))
    (h1 : current ≠ []) (h2 : maxSize < current.length + p.length) :
    procParagraphs maxSize chunks current (p :: ps)
      = procParagraphs maxSize (chunks ++ [current]) p ps
    ∧ procParagraphs maxSize chunks current [p] = (chunks ++ [current], p) := by
  have hcond : maxSize < current.length + p.length ∧ current ≠ [] := ⟨h2, h1⟩
  constructor
  · rw [procParagraphs, if_pos hcond]
  · rw [procParagraphs, if_pos hcond]
    rfl

/-- C4, witness: with `maxSize = 4`, accumulator `"aaa"` and paragraph
`"bb"` — which fits alone but overflows when merged — the step flushes
`"aaa"` and carries `"bb"` unchanged. -/
theorem oversized_para_carried_witness :
    procParagraphs 4 [] ("aaa".toList) ["bb".toList]
      = (["aaa".toList], "bb".toList) :=
  (oversized_para_carried 4 [] ("aaa".toList) ("bb".toList) []
    (by decide) (by decide)).2

/-- C5, counterexample: the whitespace-only input `"   "` is a single
whitespace-only paragraph; the source never strips paragraphs, so the result
contains the whitespace-only chunk `"   "`. -/
theorem whitespace_chunk_exists :
    recursive_chunk_text ("   ".toList) 10 = ["   ".toList]
    ∧ ("   ".toList).all isWS = true := by
  refine ⟨?_, ?_⟩ <;> decide

/-- C5, amended: the returned sequence never contains an empty chunk, and
whitespace-only sentences are discarded (every piece kept by
`split_into_sentences` contains a non-whitespace character); whitespace-only
paragraphs, however, are kept and may yield whitespace-only chunks. -/
theorem chunks_nonempty (text : List Char) (maxSize : Nat) :
    (∀ c ∈ recursive_chunk_text text maxSize, c ≠ [])
    ∧ (∀ s ∈ split_into_sentences text, ∃ ch ∈ s, isWS ch = false) := by
  constructor
  · intro c hc
    unfold recursive_chunk_text at hc
    by_cases ht : text = []
    · rw [if_pos ht] at hc
      simp at hc
    · rw [if_neg ht] at hc
      by_cases hr : (procParagraphs maxSize [] [] (splitParagraphs text)).2 ≠ []
      · rw [if_pos hr] at hc
        rcases List.mem_append.1 hc with hm1 | hm2
        · exact procParagraphs_ne_nil maxSize (splitParagraphs text) [] []
            (by simp) c hm1
        · have : c = (procParagraphs maxSize [] [] (splitParagraphs text)).2 := by
            simpa using hm2
          subst this
          exact hr
      · rw [if_neg hr] at hc
        exact procParagraphs_ne_nil maxSize (splitParagraphs text) [] []
          (by simp) c hc
  · intro s hs
    exact sentences_mem_not_ws text s hs

/-- C5, witness: a concrete chunk is non-empty and a concrete kept sentence
contains a non-whitespace character. -/
theorem chunks_nonempty_witness :
    ("a".toList ≠ []) ∧ ∃ ch ∈ ("b".toList), isWS ch = false :=
  ⟨(chunks_nonempty ("a".toList) 5).1 ("a".toList) (by decide),
   (chunks_nonempty ("b".toList) 5).2 ("b".toList) (by decide)⟩

/-- C6, counterexample: `" a "` is non-empty, contains no paragraph separator
and fits in `maxSize = 10`, yet the single returned chunk is `" a "` itself,
not the trimmed `"a"` the claim demands — the paragraph path of the source
never strips. -/
theorem untrimmed_chunk :
    (" a ".toList ≠ [])
    ∧ hasParSep (" a ".toList) = false
    ∧ (" a ".toList).length ≤ 10
    ∧ recursive_chunk_text (" a ".toList) 10 = [" a ".toList]
    ∧ recursive_chunk_text (" a ".toList) 10 ≠ [strip (" a ".toList)] := by
  refine ⟨?_, ?_, ?_, ?_, ?_⟩ <;> decide

/-- C6, amended: for non-empty `text` with no paragraph separator and
`length text ≤ maxSize`, the result is exactly one chunk equal to `text`
itself (with no trimming applied). -/
theorem single_small_paragraph (text : List Char) (maxSize : Nat)
    (h1 : text ≠ []) (h2 : hasParSep text = false) (h3 : text.length ≤ maxSize) :
    recursive_chunk_text text maxSize = [text] := by
  unfold recursive_chunk_text
  rw [if_neg h1, splitParagraphs_eq_self text h2]
  have hstep : procParagraphs maxSize [] [] [text] = ([], text) := by
    rw [procParagraphs]
    rw [if_neg (by simp)]
    rw [if_neg (by omega)]
    have hre : ([] : List Char)
        ++ (if ([] : List Char) ≠ [] then ['\n', '\n'] else []) ++ text = text := by
      simp
    rw [hre]
    rfl
  rw [hstep]
  rw [if_pos h1]
  rfl

/-- C6, witness at `text = "hi"`, `maxSize = 10`. -/
theorem single_small_paragraph_witness :
    recursive_chunk_text ("hi".toList) 10 = ["hi".toList] :=
  single_small_paragraph ("hi".toList) 10 (by decide) (by decide) (by decide)

/-- C7: the splitter does not split `"Dr. Smith arrived. He was late."` after
`"Dr."`, only after `"arrived."`; and in general a candidate position whose
three preceding characters are an uppercase letter, a lowercase letter and a
period is suppressed by the `(?<![A-Z][a-z]\.)` lookbehind, whatever the
candidate character and the earlier context. -/
theorem abbrev_suppresses_split :
    split_into_sentences ("Dr. Smith arrived. He was late.".toList)
      = ["Dr. Smith arrived.".toList, "He was late.".toList]
    ∧ ∀ (up lo c : Char) (rest : List Char), up.isUpper = true → lo.isLower = true →
        sentenceBoundary ('.' :: lo :: up :: rest) c = false := by
  constructor
  · decide
  · intro up lo c rest hu hl
    unfold sentenceBoundary suppressInitialAbbrev
    simp [hu, hl]

/-- C7, witness: the suppression applied to the concrete context of `"Dr."`
followed by a space. -/
theorem abbrev_suppresses_split_witness :
    sentenceBoundary ('.' :: 'r' :: 'D' :: []) ' ' = false :=
  abbrev_suppresses_split.2 'D' 'r' ' ' [] (by decide) (by decide)

/-- C8: the empty string yields the empty sequence for every positive
`maxSize`. -/
theorem empty_input_empty_output (maxSize : Nat) (h : 0 < maxSize) :
    recursive_chunk_text [] maxSize = [] := by
  unfold recursive_chunk_text
  rw [if_pos rfl]

/-- C8, witness at `maxSize = 1000`. -/
theorem empty_input_empty_output_witness :
    recursive_chunk_text [] 1000 = [] :=
  empty_input_empty_output 1000 (by decide)

theorem procParagraphs_empties (maxSize : Nat) :
    ∀ (n : Nat) (chunks : List (List Char)),
    procParagraphs maxSize chunks [] (List.replicate n []) = (chunks, []) := by
  intro n
  induction n with
  | zero =>
    intro chunks
    rfl
  | succ n ih =>
    intro chunks
    rw [List.replicate_succ, procParagraphs]
    rw [if_neg (by simp)]
    rw [if_neg (by simp)]
    have hre : ([] : List Char)
        ++ (if ([] : List Char) ≠ [] then ['\n', '\n'] else []) ++ [] = [] := by
      simp
    rw [hre]
    exact ih chunks

/-- C10: a non-empty input consisting of `k ≥ 1` consecutive paragraph
separators (a run of `2k` newlines) yields the empty sequence: every split
paragraph is empty, the accumulator stays empty, and nothing is flushed. -/
theorem newline_run_empty (k maxSize : Nat) (hk : 0 < k) :
    List.replicate (2 * k) '\n' ≠ []
    ∧ recursive_chunk_text (List.replicate (2 * k) '\n') maxSize = [] := by
  have hne : List.replicate (2 * k) '\n' ≠ [] := by
    intro h0
    have := congrArg List.length h0
    simp at this
    omega
  refine ⟨hne, ?_⟩
  unfold recursive_chunk_text
  rw [if_neg hne, splitParagraphs_nl_run k, procParagraphs_empties maxSize (k + 1) []]
  simp

/-- C10, witness at `k = 1`, `maxSize = 500`. -/
theorem newline_run_empty_witness :
    List.replicate (2 * 1) '\n' ≠ []
    ∧ recursive_chunk_text (List.replicate (2 * 1) '\n') 500 = [] :=
  newline_run_empty 1 500 (by decide)

end PicToText
